import Mathlib

/-!
Shallow embedding of `src/jsmfsb/sim.py` (the simulation driver of
jax-smfsb): the trajectory scanner `simTs` and the ensemble samplers
`simSample` / `simSampleMap`, together with the batched sampler that the
spec describes (absent from the source, which only carries a
`# TODO: add a batch_size argument` and a test exercising `batch_size`).

Modelling choices:
- Times (`t0`, `tt`, `dt`, `deltat`) are rationals; Python's float floor
  division `(tt - t0) // dt` is embedded as `Rat.floor ((tt - t0) / dt)`.
  Where a claim genuinely hinges on IEEE-754 double rounding (the literal
  `0.1`), the exact rational value of that double is used explicitly.
- JAX PRNG keys are opaque: `jax.random.split(key, n)` yields child `i` as
  a pure deterministic function of the parent key and the index `i`
  (counter-mode derivation, as threefry does).  The numeric mixing
  function is a stand-in; no claim depends on the key values themselves.
- `jax.lax.scan` is embedded as `scanOut`, `jax.vmap` as an index-batched
  `vmap`, `jax.lax.map` as a sequential structural recursion `laxMap`.
- The two ways the Python code can raise (float floor division by zero
  when `dt = 0`, and `jax.random.split` rejecting a negative count) are
  made explicit with `Except`.
-/

namespace JsmfsbSim

/-- Child key derivation: an abstract, injective-in-the-index pure mixing
function standing in for the threefry-based derivation of child key `i`
from a parent key.  Child `i` depends only on the parent and `i`. -/
def mixKey (key i : ℕ) : ℕ :=
  2654435761 * key + i

/-- Embedding of `jax.random.split(key, n)`: the ordered list of the `n`
child keys, child `i` a pure deterministic function of `(key, i)`. -/
def splitKey (key n : ℕ) : List ℕ :=
  (List.range n).map (mixKey key)

/-- Embedding of `jax.lax.scan`: threads a carry through the list, also
collecting the per-element outputs. -/
def scanOut {σ α β : Type} (f : σ → α → σ × β) : σ → List α → σ × List β
  | s, [] => (s, [])
  | s, a :: as =>
    let p := f s a
    let q := scanOut f p.1 as
    (q.1, p.2 :: q.2)

/-- Embedding of `jax.vmap f` applied to a batch: all positions are
evaluated together, indexed over the batch dimension. -/
def vmap {α β : Type} (f : α → β) (xs : List α) : List β :=
  List.ofFn fun i : Fin xs.length => f (xs.get i)

/-- Embedding of `jax.lax.map f`: sequential evaluation, one element fully
processed before the next. -/
def laxMap {α β : Type} (f : α → β) : List α → List β
  | [] => []
  | x :: xs => f x :: laxMap f xs

/-- Errors the Python driver can raise: `ZeroDivisionError` from
`(tt - t0) // dt` when `dt = 0`, and the error `jax.random.split` raises
on a negative count. -/
inductive SimErr : Type where
  | zeroDivision : SimErr
  | negativeSplit : SimErr
deriving DecidableEq

instance {ε α : Type} [DecidableEq ε] [DecidableEq α] :
    DecidableEq (Except ε α)
  | Except.error e1, Except.error e2 => decidable_of_iff (e1 = e2) (by simp)
  | Except.error _, Except.ok _ => isFalse fun h => Except.noConfusion h
  | Except.ok _, Except.error _ => isFalse fun h => Except.noConfusion h
  | Except.ok a, Except.ok b => decidable_of_iff (a = b) (by simp)

/-- The body of the `advance` closure inside `simTs`: from carry
`(x, t)` and key `k`, compute `x' = stepFun(k, x, t, dt)`, advance the
clock to `t + dt`, and emit `x'`. -/
def simTsAdvance {X : Type} (stepFun : ℕ → X → ℚ → ℚ → X) (dt : ℚ) :
    X × ℚ → ℕ → (X × ℚ) × X :=
  fun s k =>
    let x := stepFun k s.1 s.2 dt
    ((x, s.2 + dt), x)

/-- Embedding of `simTs(key, x0, t0, tt, dt, stepFun)`:
`n = int((tt - t0) // dt) + 1`, split the key into `n` child keys, then
scan the `advance` closure over them starting from `(x0, t0)`, returning
the matrix of emitted states. -/
def simTs {X : Type} (key : ℕ) (x0 : X) (t0 tt dt : ℚ)
    (stepFun : ℕ → X → ℚ → ℚ → X) : Except SimErr (List X) :=
  if dt = 0 then Except.error SimErr.zeroDivision
  else
    let n : ℤ := Rat.floor ((tt - t0) / dt) + 1
    if n < 0 then Except.error SimErr.negativeSplit
    else
      let keys := splitKey key n.toNat
      Except.ok (scanOut (simTsAdvance stepFun dt) (x0, t0) keys).2

/-- Embedding of `simSample(key, n, x0, t0, deltat, stepFun)`: split the
key into `n` child keys and evaluate `stepFun(k, x0, t0, deltat)` over
all of them at once with `jax.vmap`. -/
def simSample {X : Type} (key n : ℕ) (x0 : X) (t0 deltat : ℚ)
    (stepFun : ℕ → X → ℚ → ℚ → X) : List X :=
  vmap (fun k => stepFun k x0 t0 deltat) (splitKey key n)

/-- Embedding of `simSampleMap(key, n, x0, t0, deltat, stepFun)`: split
the key into `n` child keys and evaluate `stepFun(k, x0, t0, deltat)`
sequentially with `jax.lax.map`. -/
def simSampleMap {X : Type} (key n : ℕ) (x0 : X) (t0 deltat : ℚ)
    (stepFun : ℕ → X → ℚ → ℚ → X) : List X :=
  laxMap (fun k => stepFun k x0 t0 deltat) (splitKey key n)

/-- Fuelled chunking helper: successive groups of `bs` elements. -/
def chunkAux {α : Type} (bs : ℕ) : ℕ → List α → List (List α)
  | 0, _ => []
  | _, [] => []
  | fuel + 1, x :: xs => ((x :: xs).take bs) :: chunkAux bs fuel ((x :: xs).drop bs)

/-- Partition of a list into consecutive groups of size `bs` (the final
group may be smaller). -/
def chunkList {α : Type} (bs : ℕ) (xs : List α) : List (List α) :=
  chunkAux bs xs.length xs

/-- Modelled from the spec: `simulateSampleBatched` (the `batch_size`
variant of `sim_sample`), which is absent from `src/jsmfsb/sim.py` (only
a TODO comment and the test `test_simsamples` refer to it).  Per spec
§4.4: split the seed into `n` child streams exactly as the vectorized
strategy does, once and up front; partition the realization indices into
consecutive groups of size `batchSize` (final group possibly smaller);
apply the vectorized strategy to each group's slice of streams;
concatenate group results in group order. -/
def simSampleBatched {X : Type} (key n : ℕ) (x0 : X) (t0 deltat : ℚ)
    (stepFun : ℕ → X → ℚ → ℚ → X) (batchSize : ℕ) : List X :=
  let keys := splitKey key n
  ((chunkList batchSize keys).map
    (fun g => vmap (fun k => stepFun k x0 t0 deltat) g)).flatten

/-! ### Helper lemmas -/

theorem laxMap_eq_map {α β : Type} (f : α → β) (xs : List α) :
    laxMap f xs = xs.map f := by
  induction xs with
  | nil => rfl
  | cons x xs ih => simp [laxMap, ih]

theorem vmap_eq_map {α β : Type} (f : α → β) (xs : List α) :
    vmap f xs = xs.map f := by
  simp [vmap]

theorem scanOut_length {σ α β : Type} (f : σ → α → σ × β) :
    ∀ (s : σ) (as : List α), (scanOut f s as).2.length = as.length := by
  intro s as
  induction as generalizing s with
  | nil => rfl
  | cons a as ih => simp [scanOut, ih]

/-- The matrix emitted by scanning the `advance` closure satisfies the
recurrence of §4.1: row `i` is `stepFun` applied to the child key `i`,
the previous recorded state (`x0` for `i = 0`), the time `t0 + i * dt`,
and `dt`. -/
theorem scan_advance_getD {X : Type} (stepFun : ℕ → X → ℚ → ℚ → X)
    (dt : ℚ) (d : X) :
    ∀ (keys : List ℕ) (x0 : X) (t0 : ℚ) (i : ℕ), i < keys.length →
      (scanOut (simTsAdvance stepFun dt) (x0, t0) keys).2.getD i d =
        stepFun (keys.getD i 0)
          ((x0 :: (scanOut (simTsAdvance stepFun dt) (x0, t0) keys).2).getD i d)
          (t0 + i * dt) dt := by
  intro keys
  induction keys with
  | nil => intro x0 t0 i hi; simp at hi
  | cons k ks ih =>
    intro x0 t0 i hi
    cases i with
    | zero => simp [scanOut, simTsAdvance]
    | succ i =>
      have hi' : i < ks.length := by simpa using hi
      have h := ih (stepFun k x0 t0 dt) (t0 + dt) i hi'
      have harith : t0 + dt + (i : ℚ) * dt = t0 + ((i : ℕ) + 1 : ℕ) * dt := by
        push_cast
        ring
      calc (scanOut (simTsAdvance stepFun dt) (x0, t0) (k :: ks)).2.getD (i + 1) d
          = (scanOut (simTsAdvance stepFun dt)
              (stepFun k x0 t0 dt, t0 + dt) ks).2.getD i d := by
            simp [scanOut, simTsAdvance]
        _ = stepFun (ks.getD i 0)
              ((stepFun k x0 t0 dt ::
                (scanOut (simTsAdvance stepFun dt)
                  (stepFun k x0 t0 dt, t0 + dt) ks).2).getD i d)
              (t0 + dt + i * dt) dt := h
        _ = stepFun ((k :: ks).getD (i + 1) 0)
              ((x0 :: (scanOut (simTsAdvance stepFun dt) (x0, t0) (k :: ks)).2).getD
                (i + 1) d)
              (t0 + ((i + 1 : ℕ) : ℚ) * dt) dt := by
            rw [← harith]
            simp [scanOut, simTsAdvance]

/-- Under a dimensionality-preserving step function, every row the scan
emits has the dimensionality of the initial state. -/
theorem scan_advance_row_length (stepFun : ℕ → List ℚ → ℚ → ℚ → List ℚ)
    (dt : ℚ) (hf : ∀ k x t d, (stepFun k x t d).length = x.length) :
    ∀ (keys : List ℕ) (x0 : List ℚ) (t0 : ℚ),
      ∀ row ∈ (scanOut (simTsAdvance stepFun dt) (x0, t0) keys).2,
        row.length = x0.length := by
  intro keys
  induction keys with
  | nil => intro x0 t0 row hrow; simp [scanOut] at hrow
  | cons k ks ih =>
    intro x0 t0 row hrow
    simp only [scanOut, simTsAdvance] at hrow
    rcases List.mem_cons.mp hrow with h | h
    · rw [h]; exact hf k x0 t0 dt
    · have := ih (stepFun k x0 t0 dt) (t0 + dt) row h
      rw [this]; exact hf k x0 t0 dt

theorem chunkAux_flatten {α : Type} (bs : ℕ) (hbs : 1 ≤ bs) :
    ∀ (fuel : ℕ) (xs : List α), xs.length ≤ fuel →
      (chunkAux bs fuel xs).flatten = xs := by
  intro fuel
  induction fuel with
  | zero =>
    intro xs hlen
    have : xs = [] := List.eq_nil_of_length_eq_zero (Nat.le_zero.mp hlen)
    simp [this, chunkAux]
  | succ fuel ih =>
    intro xs hlen
    cases xs with
    | nil => simp [chunkAux]
    | cons x xs =>
      have hdrop : ((x :: xs).drop bs).length ≤ fuel := by
        rw [List.length_drop]
        simp only [List.length_cons] at hlen ⊢
        omega
      simp only [chunkAux, List.flatten_cons, ih ((x :: xs).drop bs) hdrop]
      exact List.take_append_drop bs (x :: xs)

theorem chunkList_flatten {α : Type} (bs : ℕ) (hbs : 1 ≤ bs) (xs : List α) :
    (chunkList bs xs).flatten = xs :=
  chunkAux_flatten bs hbs xs.length xs (Nat.le_refl _)

theorem map_flatten {α β : Type} (f : α → β) :
    ∀ (L : List (List α)), L.flatten.map f = (L.map (List.map f)).flatten := by
  intro L
  induction L with
  | nil => rfl
  | cons g L ih => simp [ih]

theorem ratFloor_eq_intFloor (q : ℚ) : Rat.floor q = ⌊q⌋ := by
  rw [Rat.floor_def', Rat.floor_def]

theorem splitKey_length (key n : ℕ) : (splitKey key n).length = n := by
  simp [splitKey]

/-! ### Claim theorems -/

/-- C1: for every seed, every `n ≥ 1`, every `batchSize ∈ [1, n]`, and
every pure step function, the batched ensemble sampler returns a result
element-wise exactly equal to the unbatched vectorized sampler
`simSample` with the same seed, `n`, `x0`, `t0`, `deltat` and step
function. -/
theorem simSampleBatched_eq_simSample {X : Type} (key n : ℕ) (x0 : X)
    (t0 deltat : ℚ) (stepFun : ℕ → X → ℚ → ℚ → X) (batchSize : ℕ)
    (h1 : 1 ≤ batchSize) (h2 : batchSize ≤ n) :
    simSampleBatched key n x0 t0 deltat stepFun batchSize =
      simSample key n x0 t0 deltat stepFun := by
  simp only [simSampleBatched, simSample, vmap_eq_map]
  rw [← map_flatten, chunkList_flatten batchSize h1]

theorem simSampleBatched_eq_simSample_witness :
    1 ≤ 5 ∧ 5 ≤ 20 ∧
      simSampleBatched 7 20 [(50 : ℚ), 100] 0 10 (fun _ x _ _ => x) 5 =
        simSample 7 20 [(50 : ℚ), 100] 0 10 (fun _ x _ _ => x) :=
  ⟨by decide, by decide,
    simSampleBatched_eq_simSample 7 20 [(50 : ℚ), 100] 0 10
      (fun _ x _ _ => x) 5 (by decide) (by decide)⟩

/-- C2: for every seed, every `n`, and every pure step function,
`simSample` (vectorized via `jax.vmap`) and `simSampleMap` (sequential
via `jax.lax.map`) return identical ensembles given the same seed, `n`,
`x0`, `t0` and `deltat`: both split the seed into the same `n` child
streams in the same index order and apply the same pure step function. -/
theorem simSample_eq_simSampleMap {X : Type} (key n : ℕ) (x0 : X)
    (t0 deltat : ℚ) (stepFun : ℕ → X → ℚ → ℚ → X) :
    simSample key n x0 t0 deltat stepFun =
      simSampleMap key n x0 t0 deltat stepFun := by
  simp only [simSample, simSampleMap, vmap_eq_map, laxMap_eq_map]

/-- C8: the ensemble returned by `simSample` has length `n` and satisfies
`ensemble[i] = stepFun(stream_i, x0, t0, deltat)` at every index, where
`stream_0, …, stream_(n-1)` are the `n` child streams split from the seed
in a fixed deterministic index order; all calls share `(x0, t0, deltat)`. -/
theorem simSample_index {X : Type} (key n : ℕ) (x0 : X) (t0 deltat : ℚ)
    (stepFun : ℕ → X → ℚ → ℚ → X) :
    (simSample key n x0 t0 deltat stepFun).length = n ∧
      ∀ i : ℕ, (simSample key n x0 t0 deltat stepFun)[i]? =
        ((splitKey key n)[i]?).map (fun k => stepFun k x0 t0 deltat) := by
  constructor
  · simp [simSample, vmap_eq_map, splitKey]
  · intro i
    simp [simSample, vmap_eq_map]

/-- C9: splitting the random source is deterministic — two calls of
`splitKey` with the same seed and count yield identical child-stream
sequences — and consequently two calls of `simTs` (or of `simSample`)
with identical arguments return identical results. -/
theorem splitKey_simTs_simSample_deterministic {X : Type}
    (k1 k2 n1 n2 : ℕ) (x0 : X) (t0 tt dt deltat : ℚ)
    (stepFun : ℕ → X → ℚ → ℚ → X) (hk : k1 = k2) (hn : n1 = n2) :
    splitKey k1 n1 = splitKey k2 n2 ∧
      simTs k1 x0 t0 tt dt stepFun = simTs k2 x0 t0 tt dt stepFun ∧
      simSample k1 n1 x0 t0 deltat stepFun =
        simSample k2 n2 x0 t0 deltat stepFun := by
  subst hk; subst hn
  exact ⟨rfl, rfl, rfl⟩

theorem splitKey_simTs_simSample_deterministic_witness :
    splitKey 42 5 = splitKey 42 5 ∧
      simTs 42 [(50 : ℚ)] 0 10 1 (fun _ x _ _ => x) =
        simTs 42 [(50 : ℚ)] 0 10 1 (fun _ x _ _ => x) ∧
      simSample 42 5 [(50 : ℚ)] 0 1 (fun _ x _ _ => x) =
        simSample 42 5 [(50 : ℚ)] 0 1 (fun _ x _ _ => x) :=
  splitKey_simTs_simSample_deterministic 42 42 5 5 [(50 : ℚ)] 0 10 1 1
    (fun _ x _ _ => x) rfl rfl

/-- C3: for every valid input `(x0, t0, tt, dt)` with `tt > t0` and
`dt > 0`, and every dimensionality-preserving step function, `simTs`
returns a trajectory of length exactly `floor((tt - t0) / dt) + 1`, and
every row of the trajectory has the same dimensionality as `x0`. -/
theorem simTs_length_dims (key : ℕ) (x0 : List ℚ) (t0 tt dt : ℚ)
    (stepFun : ℕ → List ℚ → ℚ → ℚ → List ℚ)
    (htt : t0 < tt) (hdt : 0 < dt)
    (hdim : ∀ k x t d, (stepFun k x t d).length = x.length) :
    ∃ mat, simTs key x0 t0 tt dt stepFun = Except.ok mat ∧
      (mat.length : ℤ) = Rat.floor ((tt - t0) / dt) + 1 ∧
      ∀ row ∈ mat, row.length = x0.length := by
  have hdt0 : dt ≠ 0 := ne_of_gt hdt
  have hq : 0 < (tt - t0) / dt := div_pos (by linarith) hdt
  have hfl : 0 ≤ Rat.floor ((tt - t0) / dt) := by
    rw [ratFloor_eq_intFloor]
    exact Int.floor_nonneg.mpr (le_of_lt hq)
  have hnneg : ¬ (Rat.floor ((tt - t0) / dt) + 1 < 0) := by omega
  have heq : simTs key x0 t0 tt dt stepFun = Except.ok
      ((scanOut (simTsAdvance stepFun dt) (x0, t0)
        (splitKey key (Rat.floor ((tt - t0) / dt) + 1).toNat)).2) := by
    simp only [simTs]
    rw [if_neg hdt0, if_neg hnneg]
  refine ⟨_, heq, ?_, ?_⟩
  · rw [scanOut_length, splitKey_length, Int.toNat_of_nonneg (by omega)]
  · intro row hrow
    exact scan_advance_row_length stepFun dt hdim _ x0 t0 row hrow

theorem simTs_length_dims_witness :
    (0 : ℚ) < 10 ∧ (0 : ℚ) < 1 ∧
      (∃ mat, simTs 1 [(50 : ℚ), 100] 0 10 1 (fun _ x _ _ => x) =
          Except.ok mat ∧
        (mat.length : ℤ) = Rat.floor (((10 : ℚ) - 0) / 1) + 1 ∧
        ∀ row ∈ mat, row.length = [(50 : ℚ), 100].length) :=
  ⟨by norm_num, by norm_num,
    simTs_length_dims 1 [(50 : ℚ), 100] 0 10 1 (fun _ x _ _ => x)
      (by norm_num) (by norm_num) (fun _ _ _ _ => rfl)⟩

/-- C6: for every valid input, the trajectory returned by `simTs`
satisfies the recurrence `mat[i] = stepFun(stream_i, x_i, t0 + i*dt, dt)`
with `x_0 = x0` and `x_(i+1) = mat[i]`, where the streams are the child
keys split from the seed in order; in particular the initial state `x0`
is not included as the first row — row `0` is the state after the first
`stepFun` call. -/
theorem simTs_recurrence {X : Type} (key : ℕ) (x0 : X) (t0 tt dt : ℚ)
    (stepFun : ℕ → X → ℚ → ℚ → X) (d : X) (htt : t0 < tt) (hdt : 0 < dt) :
    ∃ mat, simTs key x0 t0 tt dt stepFun = Except.ok mat ∧
      (mat.length : ℤ) = Rat.floor ((tt - t0) / dt) + 1 ∧
      ∀ i : ℕ, i < mat.length →
        mat.getD i d =
          stepFun ((splitKey key mat.length).getD i 0)
            ((x0 :: mat).getD i d) (t0 + i * dt) dt := by
  have hdt0 : dt ≠ 0 := ne_of_gt hdt
  have hq : 0 < (tt - t0) / dt := div_pos (by linarith) hdt
  have hfl : 0 ≤ Rat.floor ((tt - t0) / dt) := by
    rw [ratFloor_eq_intFloor]
    exact Int.floor_nonneg.mpr (le_of_lt hq)
  have hnneg : ¬ (Rat.floor ((tt - t0) / dt) + 1 < 0) := by omega
  set keys := splitKey key (Rat.floor ((tt - t0) / dt) + 1).toNat with hkeys
  set mat := (scanOut (simTsAdvance stepFun dt) (x0, t0) keys).2 with hmat
  have heq : simTs key x0 t0 tt dt stepFun = Except.ok mat := by
    simp only [simTs]
    rw [if_neg hdt0, if_neg hnneg]
  have hlen : mat.length = (Rat.floor ((tt - t0) / dt) + 1).toNat := by
    rw [hmat, scanOut_length, hkeys, splitKey_length]
  refine ⟨mat, heq, ?_, ?_⟩
  · rw [hlen, Int.toNat_of_nonneg (by omega)]
  · intro i hi
    have hi' : i < keys.length := by
      rw [hkeys, splitKey_length]
      rw [hlen] at hi
      exact hi
    have h := scan_advance_getD stepFun dt d keys x0 t0 i hi'
    rw [hlen, ← hkeys]
    exact h

theorem simTs_recurrence_witness :
    (0 : ℚ) < 2 ∧ (0 : ℚ) < 1 ∧
      (∃ mat, simTs 2 [(50 : ℚ), 100] 0 2 1 (fun _ x _ _ => x) =
          Except.ok mat ∧
        (mat.length : ℤ) = Rat.floor (((2 : ℚ) - 0) / 1) + 1 ∧
        ∀ i : ℕ, i < mat.length →
          mat.getD i [] =
            (fun (_ : ℕ) (x : List ℚ) (_ _ : ℚ) => x)
              ((splitKey 2 mat.length).getD i 0)
              (([(50 : ℚ), 100] :: mat).getD i []) (0 + i * 1) 1) :=
  ⟨by norm_num, by norm_num,
    simTs_recurrence 2 [(50 : ℚ), 100] 0 2 1
      (fun _ x _ _ => x) [] (by norm_num) (by norm_num)⟩

theorem simTs_ten_three :
    simTs 0 ([] : List ℚ) 0 10 3 (fun _ _ t _ => [t]) =
      Except.ok [[(0 : ℚ)], [3], [6], [9]] := by
  have hfl : Rat.floor (((10 : ℚ) - 0) / 3) = 3 := by
    rw [ratFloor_eq_intFloor]
    norm_num
  simp only [simTs]
  rw [if_neg (by norm_num : ¬((3 : ℚ) = 0)), hfl]
  norm_num [splitKey, mixKey, scanOut, simTsAdvance, List.range_succ]

/-- C5: whenever `tt - t0` is an exact multiple of `dt` (valid inputs),
the time argument of the last `stepFun` call — the last recorded grid
time — is exactly `tt`; in the non-divisible case `dt = 3` over
`[0, 10]` the last grid time is `9`, not `10`.  The step function here
records its time argument, so the trajectory exposes the grid times. -/
theorem simTs_last_grid_time (key : ℕ) (t0 tt dt : ℚ) (k : ℤ)
    (htt : t0 < tt) (hdt : 0 < dt) (hk : tt - t0 = k * dt) :
    (∃ mat, simTs key ([] : List ℚ) t0 tt dt (fun _ _ t _ => [t]) =
        Except.ok mat ∧ mat ≠ [] ∧ mat.getD (mat.length - 1) [] = [tt]) ∧
      simTs 0 ([] : List ℚ) 0 10 3 (fun _ _ t _ => [t]) =
        Except.ok [[(0 : ℚ)], [3], [6], [9]] ∧
      (9 : ℚ) ≠ 10 := by
  refine ⟨?_, simTs_ten_three, by norm_num⟩
  have hdt0 : dt ≠ 0 := ne_of_gt hdt
  have hq : (tt - t0) / dt = (k : ℚ) := by
    rw [hk]
    field_simp
  have hk0 : 0 < k := by
    have h1 : (0 : ℚ) < k * dt := by linarith
    by_contra hneg
    push_neg at hneg
    have h2 : (k : ℚ) ≤ 0 := by exact_mod_cast hneg
    nlinarith
  have hfl : Rat.floor ((tt - t0) / dt) = k := by
    rw [hq, ratFloor_eq_intFloor, Int.floor_intCast]
  have hnneg : ¬ (Rat.floor ((tt - t0) / dt) + 1 < 0) := by
    rw [hfl]; omega
  set keys := splitKey key (Rat.floor ((tt - t0) / dt) + 1).toNat with hkeys
  set mat := (scanOut (simTsAdvance (fun _ _ t _ => ([t] : List ℚ)) dt)
    (([] : List ℚ), t0) keys).2 with hmat
  have heq : simTs key ([] : List ℚ) t0 tt dt (fun _ _ t _ => [t]) =
      Except.ok mat := by
    simp only [simTs]
    rw [if_neg hdt0, if_neg hnneg]
  have hlen : mat.length = k.toNat + 1 := by
    rw [hmat, scanOut_length, hkeys, splitKey_length, hfl]
    omega
  refine ⟨mat, heq, ?_, ?_⟩
  · intro hnil
    rw [hnil] at hlen
    simp at hlen
  · have hi' : k.toNat < keys.length := by
      rw [hkeys, splitKey_length, hfl]
      omega
    have h := scan_advance_getD (fun _ _ t _ => ([t] : List ℚ)) dt []
      keys [] t0 k.toNat hi'
    rw [hlen]
    simp only [Nat.add_sub_cancel]
    rw [h]
    have hcast : ((k.toNat : ℕ) : ℚ) = (k : ℚ) := by
      exact_mod_cast congrArg (fun z : ℤ => (z : ℚ))
        (Int.toNat_of_nonneg (le_of_lt hk0))
    simp only [hcast]
    have : t0 + (k : ℚ) * dt = tt := by linarith
    rw [this]

theorem simTs_last_grid_time_witness :
    (0 : ℚ) < 10 ∧ (0 : ℚ) < 1 ∧ (10 : ℚ) - 0 = (10 : ℤ) * 1 ∧
      ((∃ mat, simTs 4 ([] : List ℚ) 0 10 1 (fun _ _ t _ => [t]) =
          Except.ok mat ∧ mat ≠ [] ∧ mat.getD (mat.length - 1) [] = [10]) ∧
        simTs 0 ([] : List ℚ) 0 10 3 (fun _ _ t _ => [t]) =
          Except.ok [[(0 : ℚ)], [3], [6], [9]] ∧
        (9 : ℚ) ≠ 10) :=
  ⟨by norm_num, by norm_num, by norm_num,
    simTs_last_grid_time 4 0 10 1 10 (by norm_num) (by norm_num)
      (by norm_num)⟩

theorem simTs_single_step {X : Type} (key : ℕ) (x0 : X) (t0 : ℚ)
    (stepFun : ℕ → X → ℚ → ℚ → X) :
    simTs key x0 t0 t0 1 stepFun =
      Except.ok [stepFun (mixKey key 0) x0 t0 1] := by
  have h0 : Rat.floor ((t0 - t0) / 1) = 0 := by
    rw [ratFloor_eq_intFloor]
    simp
  simp only [simTs]
  rw [if_neg (one_ne_zero : (1 : ℚ) ≠ 0), h0]
  norm_num [splitKey, mixKey, scanOut, simTsAdvance, List.range_succ]

/-- C7 counterexample: at `tt = t0` (here both `0`, with `dt = 1`) the
code raises no error at all — `simTs` computes `n = 1`, performs one
step-function call and returns a one-row trajectory — contradicting the
claim that every input with `tt ≤ t0` raises `InvalidArgument` before
any step call. -/
theorem simTs_tt_eq_t0_no_error :
    simTs 0 [(50 : ℚ), 100] 0 0 1 (fun _ x _ _ => x) =
      Except.ok [[(50 : ℚ), 100]] := by
  simp only [simTs_single_step]

/-- C7 amended: with `dt = 0`, `simTs` fails with the division-by-zero
error of `(tt - t0) // dt` (not an `InvalidArgument` check) before any
step-function call; with `tt = t0` and `dt = 1` no error is raised: the
call returns a one-row trajectory holding the result of a single
step-function call. -/
theorem simTs_error_behaviour {X : Type} (key : ℕ) (x0 : X) (t0 tt : ℚ)
    (stepFun : ℕ → X → ℚ → ℚ → X) :
    simTs key x0 t0 tt 0 stepFun = Except.error SimErr.zeroDivision ∧
      simTs key x0 t0 t0 1 stepFun =
        Except.ok [stepFun (mixKey key 0) x0 t0 1] :=
  ⟨by simp [simTs], simTs_single_step key x0 t0 stepFun⟩

/-- C10: the terminal time `tt` influences the result of `simTs` only
through the step count `n = floor((tt - t0) / dt) + 1`: two terminal
times with equal floors yield identical trajectories, all other
arguments equal. -/
theorem simTs_tt_only_through_floor {X : Type} (key : ℕ) (x0 : X)
    (t0 dt tt1 tt2 : ℚ) (stepFun : ℕ → X → ℚ → ℚ → X)
    (h : Rat.floor ((tt1 - t0) / dt) = Rat.floor ((tt2 - t0) / dt)) :
    simTs key x0 t0 tt1 dt stepFun = simTs key x0 t0 tt2 dt stepFun := by
  simp only [simTs, h]

theorem simTs_tt_only_through_floor_witness :
    Rat.floor (((21 : ℚ) / 2 - 0) / 1) = Rat.floor (((10 : ℚ) - 0) / 1) ∧
      simTs 3 [(50 : ℚ)] 0 ((21 : ℚ) / 2) 1 (fun _ x _ _ => x) =
        simTs 3 [(50 : ℚ)] 0 10 1 (fun _ x _ _ => x) :=
  ⟨by rw [ratFloor_eq_intFloor, ratFloor_eq_intFloor]; norm_num,
    simTs_tt_only_through_floor 3 [(50 : ℚ)] 0 1 ((21 : ℚ) / 2) 10
      (fun _ x _ _ => x)
      (by rw [ratFloor_eq_intFloor, ratFloor_eq_intFloor]; norm_num)⟩

/-- The rational value of the IEEE-754 double denoted by the Python
literal `0.1`: `3602879701896397 / 2^55`, slightly greater than `1/10`.
The concrete scenario `simTs(key, [50,100], 0, 10, 0.1, …)` runs with
this value for `dt`, so `(10 - 0) // 0.1 = 99` (Python's own test
`test_simts` asserts the resulting shape `(100, 2)`). -/
def float0_1 : ℚ := 3602879701896397 / 2 ^ 55

/-- Scanning the `advance` closure with a step function that returns its
state unchanged emits one copy of the initial state per key. -/
theorem scan_advance_const {X : Type} (dt : ℚ) :
    ∀ (keys : List ℕ) (x0 : X) (t0 : ℚ),
      (scanOut (simTsAdvance (fun _ x _ _ => x) dt) (x0, t0) keys).2 =
        List.replicate keys.length x0 := by
  intro keys
  induction keys with
  | nil => intro x0 t0; rfl
  | cons k ks ih =>
    intro x0 t0
    simp [scanOut, simTsAdvance, List.replicate, ih x0 (t0 + dt)]

theorem simTs_float_eval :
    simTs 0 [(50 : ℚ), 100] 0 10 float0_1 (fun _ x _ _ => x) =
      Except.ok (List.replicate 100 [(50 : ℚ), 100]) := by
  have hne : float0_1 ≠ 0 := by norm_num [float0_1]
  have hfl : Rat.floor (((10 : ℚ) - 0) / float0_1) = 99 := by
    rw [ratFloor_eq_intFloor]
    norm_num [float0_1]
  simp only [simTs]
  rw [if_neg hne, hfl]
  rw [if_neg (by norm_num : ¬((99 : ℤ) + 1 < 0))]
  rw [scan_advance_const, splitKey_length]
  norm_num
  decide

/-- C4 counterexample: at the concrete inputs `x0 = [50, 100]`,
`t0 = 0`, `tt = 10`, `dt =` the double `0.1`, with a step function that
returns its state unchanged, the trajectory has `100` rows, not `101`:
the double `0.1` exceeds `1/10`, so `(10 - 0) // 0.1 = 99` and
`n = 100` (the repository's own test asserts shape `(100, 2)`). -/
theorem simTs_float_rows_ne_101 :
    Except.map List.length
        (simTs 0 [(50 : ℚ), 100] 0 10 float0_1 (fun _ x _ _ => x)) =
      Except.ok 100 ∧ (100 : ℕ) ≠ 101 := by
  rw [simTs_float_eval]
  exact ⟨by simp only [Except.map, List.length_replicate], by decide⟩

/-- C4 amended: for the concrete inputs `x0 = [50, 100]`, `t0 = 0`,
`tt = 10`, `dt =` the IEEE-754 double written `0.1` in the source, and a
step function that returns its state unchanged, `simTs` returns a
trajectory with exactly `100` rows, every row equal to `[50, 100]`. -/
theorem simTs_float_concrete :
    simTs 0 [(50 : ℚ), 100] 0 10 float0_1 (fun _ x _ _ => x) =
      Except.ok (List.replicate 100 [(50 : ℚ), 100]) :=
  simTs_float_eval

end JsmfsbSim
